import Mathlib

/-!
Verification of the backup orchestration pipeline (Go sources in `backup.go`).

The repository's single source file contains several near-duplicate program
variants of the same backup tool.  We shallowly embed the pure decision logic
of the relevant functions:

* variant 1 (the `BackupManager` methods): `loadRepositoriesFromFile`,
  `extractRepoNameFromURL`, `createBackupDirectories`, `performBackups`,
  `backupRepository` (clone retry loop), `removeCredentialsFromConfig`,
  `enforceRetention`, `isDateDir`;
* variant 2 (the free functions around the `main` that exits with
  `os.Exit(1)` when `summary.Failed > 0`): `validateEnvironment`,
  `loadConfig`, `isValidRepoURL`, `extractRepoName`, `runBackup`,
  `backupRepo`.

Strings are modelled as `List Char`; the inputs handled by the program are
ASCII, where Go's byte-indexed operations agree with the character-level
model.  External effects (the git client, the filesystem, the clock) are
modelled by explicit oracle parameters, faithful to how the Go code branches
on their success or failure.
-/

namespace Backup

/-- Strings are modelled as lists of characters. -/
abbrev Str := List Char

/-- Whitespace test used by `strings.TrimSpace` (the inputs are ASCII, where
Go's Unicode whitespace set restricts to space, tab, newline, carriage
return). -/
def isSpaceChar (c : Char) : Bool :=
  c = ' ' || c = '\t' || c = '\n' || c = '\r'

/-- Model of `strings.TrimSpace`: remove leading and trailing whitespace. -/
def trimSpace (s : Str) : Str :=
  ((s.dropWhile isSpaceChar).reverse.dropWhile isSpaceChar).reverse

/-- Model of `strings.Split` with a one-character separator: the list of
(possibly empty) fields between separator occurrences.  `strings.Split`
always returns one more field than there are separators. -/
def splitOnChar (sep : Char) : Str → List Str
  | [] => [[]]
  | c :: rest =>
    match splitOnChar sep rest with
    | [] => [[c]]
    | h :: t => if c = sep then [] :: h :: t else (c :: h) :: t

/-- The characters of the `".git"` suffix stripped by the URL parsers. -/
def dotGit : Str := ".git".toList

/-- The characters of the `"https://"` scheme marker. -/
def schemeHttps : Str := "https://".toList

/-- The characters of the `"git@"` SSH marker. -/
def schemeGitAt : Str := "git@".toList

/-- Model of `strings.TrimSuffix`-style stripping used as
`url = url[:len(url)-4]` guarded by `strings.HasSuffix(url, ".git")`. -/
def stripSuffixGit (s : Str) : Str :=
  if dotGit.isSuffixOf s then s.take (s.length - 4) else s

/-- The `https://` branch of `extractRepoNameFromURL`: split on `/` and
return the fifth field when at least five fields exist; otherwise fall
through (`none`). -/
def httpsExtract (url : Str) : Option Str :=
  if schemeHttps.isPrefixOf url then
    let parts := splitOnChar '/' url
    if 5 ≤ parts.length then some (parts.getD 4 []) else none
  else none

/-- The `git@` branch of `extractRepoNameFromURL`: split on `:`, strip a
`.git` suffix from the second field, split that on `/` and return the second
piece when present; otherwise fall through (`none`). -/
def sshExtract (url : Str) : Option Str :=
  if schemeGitAt.isPrefixOf url then
    let parts := splitOnChar ':' url
    if 2 ≤ parts.length then
      let repoPart := stripSuffixGit (parts.getD 1 [])
      let repoParts := splitOnChar '/' repoPart
      if 2 ≤ repoParts.length then some (repoParts.getD 1 []) else none
    else none
  else none

/-- Model of variant 1's `extractRepoNameFromURL` (the Go function returns
`(string, error)`; the error case is modelled as `none`).  The input is
trimmed, a `.git` suffix is stripped, then the HTTPS branch and the SSH
branch are tried in order, exactly as the two `if` blocks in the source. -/
def extractRepoNameFromURL (url0 : Str) : Option Str :=
  let url := stripSuffixGit (trimSpace url0)
  match httpsExtract url with
  | some name => some name
  | none => sshExtract url

/-- Go struct `RepositoryConfig`: a repository name and its source URL. -/
structure RepositoryConfig where
  name : Str
  url : Str
deriving DecidableEq, Repr

/-- Errors of `loadRepositoriesFromFile` (the Go function returns wrapped
`error` values; we keep the two shapes: an invalid URL at a 1-based line
number, and the final no-valid-repositories check). -/
inductive LoadError where
  | invalidRepoURL (lineNo : Nat)
  | noValidRepos
deriving DecidableEq, Repr

/-- Line filter of the loader: skip a (trimmed) line when it is empty or
begins with `#`. -/
def skipLine (line : Str) : Bool :=
  line.isEmpty || ['#'].isPrefixOf line

/-- The loop body of `loadRepositoriesFromFile`: walk the lines carrying the
0-based index `i`, trim each line, skip blanks and comments, and abort with
`invalidRepoURL (i+1)` on the first line whose repository name cannot be
extracted. -/
def processLines : Nat → List Str → Except LoadError (List RepositoryConfig)
  | _, [] => .ok []
  | i, rawLine :: rest =>
    let line := trimSpace rawLine
    if skipLine line then processLines (i + 1) rest
    else
      match extractRepoNameFromURL line with
      | none => .error (.invalidRepoURL (i + 1))
      | some name =>
        match processLines (i + 1) rest with
        | .error e => .error e
        | .ok repos => .ok ({ name := name, url := line } :: repos)

/-- Model of variant 1's `loadRepositoriesFromFile`, applied to the file
content (the `os.ReadFile` step is outside the model): split on newlines,
process every line, and fail with `noValidRepos` when nothing was
collected. -/
def loadRepositoriesFromFile (content : Str) : Except LoadError (List RepositoryConfig) :=
  match processLines 0 (splitOnChar '\n' content) with
  | .error e => .error e
  | .ok repos => if repos.isEmpty then .error .noValidRepos else .ok repos

/-- Go struct `BackupResult`, restricted to the pure fields the claims are
about (the wall-clock fields `Size`, `ZipSize`, `Duration`, `StartTime`,
`EndTime` are produced by external probes and the clock). -/
structure BackupResultP where
  name : Str
  success : Bool
  error : Str := []
deriving DecidableEq, Repr

/-- Go struct `BackupSummary`, restricted likewise to results and the two
counters. -/
structure BackupSummaryP where
  results : List BackupResultP
  successCount : Nat
  failureCount : Nat
deriving DecidableEq, Repr

/-- Model of variant 1's `performBackups`: iterate over the repositories in
order, append each repository's result and bump exactly one of the two
counters depending on `result.Success`.  The per-repository work
(`bm.backupRepository`) is abstracted as the function argument
`backupOne`. -/
def performBackups (backupOne : RepositoryConfig → BackupResultP)
    (repos : List RepositoryConfig) : BackupSummaryP :=
  repos.foldl
    (fun s repo =>
      let result := backupOne repo
      { results := s.results ++ [result]
        successCount := s.successCount + (if result.success then 1 else 0)
        failureCount := s.failureCount + (if result.success then 0 else 1) })
    { results := [], successCount := 0, failureCount := 0 }

/-- Observable steps of one repository backup, in the order the code performs
them: a clone attempt (with its 1-based attempt number), a backoff sleep (with
its duration in seconds), the credential scrub of the cloned config, the
directory-size probe, the zip compression, and the removal of the uncompressed
mirror directory. -/
inductive BStep where
  | cloneAttempt (attempt : Nat)
  | sleepSec (secs : Nat)
  | removeCreds
  | sizeCalc
  | compress
  | removeMirror
deriving DecidableEq, Repr

/-- Discriminator for clone-attempt steps. -/
def isCloneStep : BStep → Bool
  | .cloneAttempt _ => true
  | _ => false

/-- Discriminator for the steps emitted inside the retry loop (clone attempts
and backoff sleeps). -/
def isRetryStep : BStep → Bool
  | .cloneAttempt _ => true
  | .sleepSec _ => true
  | _ => false

/-- Retry budget of variant 1's clone loop (`maxRetries := 3`). -/
def maxRetries : Nat := 3

/-- Model of the retry loop in `backupRepository`
(`for attempt := 1; attempt <= maxRetries; attempt++`).  The outcome of the
external `git clone` on attempt `n` is the oracle `cloneErr n` (`none` for
success, `some msg` for failure).  `remaining` counts the loop iterations
still allowed (`maxRetries - attempt + 1`), `lastErr` is the running
`lastError` variable.  Returns the `result.Success` flag, the final
`lastError`, and the emitted steps: a failed non-final attempt is followed by
`time.Sleep(attempt seconds)` and the loop continues; a failed final attempt
ends the loop; a successful attempt sets `Success` and breaks. -/
def retryLoop (cloneErr : Nat → Option Str) :
    Nat → Nat → Option Str → Bool × Option Str × List BStep
  | 0, _, lastErr => (false, lastErr, [])
  | remaining + 1, attempt, lastErr =>
    match cloneErr attempt with
    | some e =>
      if attempt < maxRetries then
        let r := retryLoop cloneErr remaining (attempt + 1) (some e)
        (r.1, r.2.1, .cloneAttempt attempt :: .sleepSec attempt :: r.2.2)
      else (false, some e, [.cloneAttempt attempt])
    | none => (true, lastErr, [.cloneAttempt attempt])

/-- Model of variant 1's `backupRepository`: run the clone retry loop; on
total failure record `lastError.Error()` in the result; on success scrub
credentials, probe the directory size, compress, and delete the uncompressed
mirror only when compression succeeded (`zipOk`); a failed compression is
only logged.  Returns the `BackupResult` and the emitted step trace. -/
def backupRepository (name : Str) (cloneErr : Nat → Option Str) (zipOk : Bool) :
    BackupResultP × List BStep :=
  let r := retryLoop cloneErr maxRetries 1 none
  if r.1 then
    ({ name := name, success := true, error := [] },
      r.2.2 ++ [.removeCreds, .sizeCalc, .compress] ++ if zipOk then [.removeMirror] else [])
  else
    ({ name := name, success := false, error := (r.2.1).getD [] }, r.2.2)

/-- Model of `strings.ReplaceAll s old new`: replace every non-overlapping
occurrence of `old` in `s` by `new`, scanning left to right.  For an empty
`old`, Go inserts `new` before every character and at the end. -/
def goReplaceAll (s old new : Str) : Str :=
  if _h : old = [] then new ++ s.flatMap (fun c => c :: new)
  else
    match s with
    | [] => []
    | c :: rest =>
      if old.isPrefixOf (c :: rest) then
        new ++ goReplaceAll ((c :: rest).drop old.length) old new
      else c :: goReplaceAll rest old new
termination_by s.length
decreasing_by
  · simp only [List.length_drop, List.length_cons]
    have hl : 1 ≤ old.length := by
      cases old with
      | nil => exact absurd rfl _h
      | cons a l => simp
    omega
  · simp

/-- The authenticated-host substring `https://<token>@github.com` that
`removeCredentialsFromConfig` erases. -/
def authHost (token : Str) : Str :=
  schemeHttps ++ token ++ "@github.com".toList

/-- The plain host `https://github.com` that replaces the authenticated
host. -/
def plainHost : Str := "https://github.com".toList

/-- Model of variant 1's `removeCredentialsFromConfig`, applied to the config
file content (the `os.ReadFile`/`os.WriteFile` steps are outside the model):
replace every occurrence of `https://<token>@github.com` by
`https://github.com`. -/
def removeCredentialsFromConfig (token content : Str) : Str :=
  goReplaceAll content (authHost token) plainHost

/-- Go struct `Result` of variant 2, restricted to the pure fields (sizes
and duration come from external probes and the clock). -/
structure ResultV2 where
  repo : Str
  success : Bool
  error : Str := []
deriving DecidableEq, Repr

/-- State of the uncompressed clone directory on disk after a variant 2
`backupRepo` call. -/
inductive MirrorDisk where
  | neverCreated
  | removed
  | retained
deriving DecidableEq, Repr

/-- Error text of variant 2's parameter check. -/
def invalidParamsMsg : Str := "Invalid parameters provided".toList

/-- Error prefix of variant 2's clone failure (`"Clone failed: %v"`; the
formatted cause is abstracted away). -/
def cloneFailMsg : Str := "Clone failed".toList

/-- Error prefix of variant 2's compression failure
(`"ZIP creation failed: %v"`; the formatted cause is abstracted away). -/
def zipFailMsg : Str := "ZIP creation failed".toList

/-- Model of variant 2's `backupRepo` (the variant whose `main` exits
non-zero on any failed repository): reject empty parameters; clone
(outcome `cloneOk`); on clone failure return a failed result (no directory
was created); compress to zip (outcome `zipOk`); on zip failure delete the
backup directory with `os.RemoveAll` and return a failed result; on success
delete the uncompressed directory after measuring the zip.  The second
component reports what happened to the uncompressed clone directory. -/
def backupRepo (repoURL repoName backupDir : Str) (cloneOk zipOk : Bool) :
    ResultV2 × MirrorDisk :=
  if repoURL.isEmpty || repoName.isEmpty || backupDir.isEmpty then
    ({ repo := repoURL, success := false, error := invalidParamsMsg }, .neverCreated)
  else if !cloneOk then
    ({ repo := repoURL, success := false, error := cloneFailMsg }, .neverCreated)
  else if !zipOk then
    ({ repo := repoURL, success := false, error := zipFailMsg }, .removed)
  else
    ({ repo := repoURL, success := true }, .removed)

/-- Pre-flight errors of variant 2's `validateEnvironment`. -/
inductive EnvError where
  | missingToken
  | missingReposFile
  | missingGit
deriving DecidableEq, Repr

/-- Environment facts consumed by variant 2's `validateEnvironment` (the
`du` probe only logs a warning and is omitted). -/
structure EnvV2 where
  backupToken : Str
  reposFileExists : Bool
  gitAvailable : Bool

/-- Model of variant 2's `validateEnvironment`: require a non-empty
`BACKUP_TOKEN`, an existing `repositories.txt`, and a `git` executable, in
that order. -/
def validateEnvironment (e : EnvV2) : Except EnvError Unit :=
  if e.backupToken.isEmpty then .error .missingToken
  else if !e.reposFileExists then .error .missingReposFile
  else if !e.gitAvailable then .error .missingGit
  else .ok ()

/-- The characters of `"https://github.com/"`, the anchored head of variant
2's repository-URL pattern. -/
def ghHead : Str := "https://github.com/".toList

/-- Character class `[a-zA-Z0-9._-]` of variant 2's URL pattern. -/
def allowedChar (c : Char) : Bool :=
  c.isAlpha || c.isDigit || c = '.' || c = '_' || c = '-'

/-- Model of variant 2's `isValidRepoURL`, the regular expression
`^https://github\.com/[a-zA-Z0-9._-]+/[a-zA-Z0-9._-]+(/.*)?$` decided
directly: the anchored head, a non-empty allowed-character owner, `/`, a
non-empty allowed-character repository, then nothing or a `/`-headed tail
without a newline (`.` does not match a newline).  Greedy runs are exact
here because the character after each `+`-run is never in the class. -/
def isValidRepoURL (url : Str) : Bool :=
  ghHead.isPrefixOf url &&
    (let rest := url.drop ghHead.length
     let owner := rest.takeWhile allowedChar
     let afterOwner := rest.drop owner.length
     !owner.isEmpty &&
       match afterOwner with
       | '/' :: r2 =>
         let repo := r2.takeWhile allowedChar
         let tail := r2.drop repo.length
         !repo.isEmpty && (tail.isEmpty || (tail.headD ' ' = '/' && !tail.contains '\n'))
       | _ => false)

/-- Model of variant 2's `loadConfig`, applied to the file content: trim
every line, keep the non-blank non-comment lines that pass `isValidRepoURL`
(invalid ones are only logged), and fail when nothing remains. -/
def loadConfig (content : Str) : Except Unit (List Str) :=
  let repos := ((splitOnChar '\n' content).map trimSpace).filter
    (fun line => !line.isEmpty && !(['#'].isPrefixOf line) && isValidRepoURL line)
  if repos.isEmpty then .error () else .ok repos

/-- Model of `strings.TrimSuffix`: strip one occurrence of `suffix` from the
end of `s`, when present. -/
def trimSuffix (suffix s : Str) : Str :=
  if suffix.isSuffixOf s then s.take (s.length - suffix.length) else s

/-- Model of variant 2's `extractRepoName`: strip one trailing `/` and one
trailing `.git`, split on `/`, and return `owner/repo` built from the last
two fields; the empty string signals failure. -/
def extractRepoName (repoURL : Str) : Str :=
  if repoURL.isEmpty then []
  else
    let u := trimSuffix dotGit (trimSuffix ['/'] repoURL)
    let parts := splitOnChar '/' u
    if parts.length < 2 then []
    else parts.getD (parts.length - 2) [] ++ '/' :: parts.getD (parts.length - 1) []

/-- Go struct `Summary` of variant 2 (totals and results). -/
structure SummaryV2 where
  total : Nat
  success : Nat
  failed : Nat
  results : List ResultV2
deriving DecidableEq, Repr

/-- The dated backup directory `backups/<repoName>/<date>` variant 2 clones
into, as a character string (`filepath.Join`). -/
def backupDirOf (repoName date : Str) : Str :=
  "backups/".toList ++ repoName ++ '/' :: date

/-- Model of variant 2's `runBackup`: for every configured repository, in
order, extract the name (a failure yields a failed result), create the dated
backup directory (outcome `mkdirOk`; a failure yields a failed result), and
otherwise run `backupRepo` with the clone and zip outcomes given by the
oracles.  The summary counts successes and failures over all results. -/
def runBackupV2 (date : Str) (repos : List Str)
    (mkdirOk cloneOkOf zipOkOf : Str → Bool) : SummaryV2 :=
  let results := repos.map fun repo =>
    let repoName := extractRepoName repo
    if repoName.isEmpty then
      { repo := repo, success := false, error := "Failed to extract repository name".toList }
    else if !mkdirOk repo then
      { repo := repo, success := false, error := "Failed to create backup directory".toList }
    else (backupRepo repo repoName (backupDirOf repoName date) (cloneOkOf repo) (zipOkOf repo)).1
  { total := results.length
    success := results.countP (·.success)
    failed := results.countP (fun r => !r.success)
    results := results }

/-- Model of variant 2's `main` as its process exit code: `log.Fatal` on a
pre-flight validation error, on a configuration-load error, or on an empty
repository list exits 1; after the backup loop the process exits 1 when
`summary.Failed > 0` and 0 otherwise.  (`setupGit`, `saveBackupResults`,
`commitAndPush`, `printSummary` and `runCleanupChecks` only log warnings and
cannot change the exit code.) -/
def mainV2ExitCode (env : EnvV2) (content date : Str)
    (mkdirOk cloneOkOf zipOkOf : Str → Bool) : Nat :=
  match validateEnvironment env with
  | .error _ => 1
  | .ok _ =>
    match loadConfig content with
    | .error _ => 1
    | .ok repos =>
      if repos.length = 0 then 1
      else if (runBackupV2 date repos mkdirOk cloneOkOf zipOkOf).failed > 0 then 1 else 0

/-- Success of variant 1's `createBackupDirectories` as a whole: the
`os.RemoveAll` of a pre-existing dated directory only logs a warning on
failure, but the loop returns an error at the first repository whose
`os.MkdirAll` fails, so the call succeeds exactly when every repository's
`MkdirAll` (oracle `mkdirOk`) succeeds. -/
def createBackupDirectoriesOk (mkdirOk : RepositoryConfig → Bool)
    (repos : List RepositoryConfig) : Bool :=
  repos.all mkdirOk

/-- Model of variant 1's `RunBackup` (the `BackupManager` method): load the
repository list (an error propagates), create the dated backup directories
(an error propagates), run the per-repository loop, then retention, summary
writing and the final log — none of which can fail the call (summary-write
errors only log a warning).  The method returns nil — modelled as
`some summary` — regardless of the summary's failure count. -/
def runBackupV1 (content : Str) (mkdirOk : RepositoryConfig → Bool)
    (backupOne : RepositoryConfig → BackupResultP) : Option BackupSummaryP :=
  match loadRepositoriesFromFile content with
  | .error _ => none
  | .ok repos =>
    if !createBackupDirectoriesOk mkdirOk repos then none
    else some (performBackups backupOne repos)

/-- Model of variant 1's `main` (the `BackupManager` program) as its process
exit code: exit 1 when `BACKUP_TOKEN` is empty or when `RunBackup` returns
an error, exit 0 otherwise.  The summary's failure count never reaches the
exit code: `RunBackup` returns nil even when every repository failed. -/
def mainV1ExitCode (backupToken content : Str) (mkdirOk : RepositoryConfig → Bool)
    (backupOne : RepositoryConfig → BackupResultP) : Nat :=
  if backupToken.isEmpty then 1
  else
    match runBackupV1 content mkdirOk backupOne with
    | none => 1
    | some _ => 0

/-- Model of variant 1's `isDateDir`: a directory name is a dated backup
when it has exactly 10 characters, `-` at positions 4 and 7, and a decimal
digit everywhere else.  (All accepting characters are ASCII, so Go's
byte-indexed loop agrees with the character-level model.) -/
def isDateDir (name : Str) : Bool :=
  if name.length ≠ 10 then false
  else name.enum.all fun ic =>
    if ic.1 = 4 ∨ ic.1 = 7 then ic.2 = '-'
    else '0' ≤ ic.2 && ic.2 ≤ '9'

/-- One entry of a directory listing (`os.ReadDir`): its name and whether it
is a directory. -/
structure DirEntry where
  name : Str
  isDir : Bool
deriving DecidableEq, Repr

/-- Retention maximum of variant 1's `enforceRetention`
(`const maxBackups = 5`). -/
def maxBackups : Nat := 5

/-- Byte-wise lexicographic string order used by Go's `sort.Strings` (on the
ASCII directory names the byte order and the character order agree). -/
def ltStr : Str → Str → Bool
  | _, [] => false
  | [], _ :: _ => true
  | a :: as, b :: bs => if a = b then ltStr as bs else decide (a < b)

/-- Insert a string into an already sorted list, used by `sortStrings`. -/
def insertStr (x : Str) : List Str → List Str
  | [] => [x]
  | y :: ys => if ltStr x y then x :: y :: ys else y :: insertStr x ys

/-- Model of `sort.Strings` as insertion sort.  Lexicographic order is total
and antisymmetric, so the sorted permutation of a list of names is unique and
any correct sorting algorithm produces this result. -/
def sortStrings (l : List Str) : List Str :=
  l.foldr insertStr []

/-- The dated subdirectories `enforceRetention` collects for one repository:
the entries that are directories and whose name matches `isDateDir`. -/
def retentionCandidates (entries : List DirEntry) : List Str :=
  (entries.filter fun e => e.isDir && isDateDir e.name).map DirEntry.name

/-- The directories variant 1's `enforceRetention` deletes for one
repository: nothing when at most `maxBackups` dated directories exist,
otherwise the `count - maxBackups` lexicographically smallest dated
directories (`backupDirs[:len(backupDirs)-maxBackups]` after
`sort.Strings`). -/
def retentionToDelete (entries : List DirEntry) : List Str :=
  let backupDirs := retentionCandidates entries
  if backupDirs.length ≤ maxBackups then []
  else (sortStrings backupDirs).take (backupDirs.length - maxBackups)

/-- Filesystem paths as segment lists (`filepath.Join` of the segments). -/
abbrev FPath := List Str

/-- A filesystem is modelled by which paths currently exist. -/
abbrev FS := FPath → Bool

/-- Model of `os.RemoveAll root`: afterwards neither `root` nor anything
below it exists. -/
def removeAllFS (root : FPath) (fs : FS) : FS :=
  fun p => if root.isPrefixOf p then false else fs p

/-- Model of `os.MkdirAll target`: afterwards `target` and all its ancestors
exist. -/
def mkdirAllFS (target : FPath) (fs : FS) : FS :=
  fun p => if p.isPrefixOf target then true else fs p

/-- The dated backup directory `backups/<name>/<date>` of one repository, as
a segment path. -/
def backupPathOf (name date : Str) : FPath :=
  ["backups".toList, name, date]

/-- Model of variant 1's `createBackupDirectories`: for every repository, in
order, `os.RemoveAll` the dated backup path (deleting any same-date backup
left by an earlier run) and then `os.MkdirAll` it fresh. -/
def createBackupDirectoriesFS (repos : List RepositoryConfig) (date : Str) (fs : FS) : FS :=
  repos.foldl
    (fun acc repo =>
      mkdirAllFS (backupPathOf repo.name date) (removeAllFS (backupPathOf repo.name date) acc))
    fs

/-! Lemmas about the clone retry loop. -/

theorem retryLoop_steps (cloneErr : Nat → Option Str) :
    ∀ (remaining attempt : Nat) (lastErr : Option Str),
      ∀ s ∈ (retryLoop cloneErr remaining attempt lastErr).2.2, isRetryStep s = true := by
  intro remaining
  induction remaining with
  | zero => intro attempt lastErr s hs; simp [retryLoop] at hs
  | succ n ih =>
    intro attempt lastErr s hs
    rw [retryLoop] at hs
    cases h : cloneErr attempt with
    | some e =>
      rw [h] at hs
      by_cases hlt : attempt < maxRetries
      · simp only [if_pos hlt, List.mem_cons] at hs
        rcases hs with h1 | h1 | h1
        · subst h1; rfl
        · subst h1; rfl
        · exact ih (attempt + 1) (some e) s h1
      · simp only [if_neg hlt, List.mem_cons, List.not_mem_nil, or_false] at hs
        subst hs; rfl
    | none =>
      rw [h] at hs
      simp only [List.mem_cons, List.not_mem_nil, or_false] at hs
      subst hs; rfl

theorem retryLoop_clone_count (cloneErr : Nat → Option Str) :
    ∀ (remaining attempt : Nat) (lastErr : Option Str),
      ((retryLoop cloneErr remaining attempt lastErr).2.2.countP isCloneStep) ≤ remaining := by
  intro remaining
  induction remaining with
  | zero => intro attempt lastErr; simp [retryLoop]
  | succ n ih =>
    intro attempt lastErr
    rw [retryLoop]
    cases h : cloneErr attempt with
    | some e =>
      by_cases hlt : attempt < maxRetries
      · have := ih (attempt + 1) (some e)
        simp [if_pos hlt, List.countP_cons, isCloneStep]
        omega
      · simp [if_neg hlt, List.countP_cons, isCloneStep]
    | none => simp [List.countP_cons, isCloneStep]

/-- Claim C7.  In every summary produced by the per-repository loop
`performBackups`, the success count plus the failure count equals the number
of outcomes: each repository's result is appended exactly once and bumps
exactly one of the two counters. -/
theorem performBackups_success_add_failure
    (backupOne : RepositoryConfig → BackupResultP) (repos : List RepositoryConfig) :
    (performBackups backupOne repos).successCount
      + (performBackups backupOne repos).failureCount
      = (performBackups backupOne repos).results.length := by
  suffices h : ∀ (l : List RepositoryConfig) (s : BackupSummaryP),
      s.successCount + s.failureCount = s.results.length →
      ((l.foldl
          (fun s repo =>
            let result := backupOne repo
            { results := s.results ++ [result]
              successCount := s.successCount + (if result.success then 1 else 0)
              failureCount := s.failureCount + (if result.success then 0 else 1) })
          s).successCount
        + (l.foldl
            (fun s repo =>
              let result := backupOne repo
              { results := s.results ++ [result]
                successCount := s.successCount + (if result.success then 1 else 0)
                failureCount := s.failureCount + (if result.success then 0 else 1) })
            s).failureCount
        = (l.foldl
            (fun s repo =>
              let result := backupOne repo
              { results := s.results ++ [result]
                successCount := s.successCount + (if result.success then 1 else 0)
                failureCount := s.failureCount + (if result.success then 0 else 1) })
            s).results.length) by
    exact h repos { results := [], successCount := 0, failureCount := 0 } rfl
  intro l
  induction l with
  | nil => intro s hs; simpa using hs
  | cons repo rest ih =>
    intro s hs
    simp only [List.foldl_cons]
    apply ih
    simp only [List.length_append, List.length_cons, List.length_nil]
    cases hsucc : (backupOne repo).success <;> simp <;> omega

/-- Claim C4.  The clone step of `backupRepository` is attempted at most 3
times; a clone failing on every attempt ends as a failed outcome whose
recorded error is the last (third) attempt's error, with backoff sleeps of 1
and 2 seconds between the attempts; a clone failing on attempts 1 and 2 and
succeeding on attempt 3 ends as a succeeded outcome with no error
recorded. -/
theorem backupRepository_retry_policy
    (name : Str) (cloneErr : Nat → Option Str) (zipOk : Bool) :
    ((backupRepository name cloneErr zipOk).2.countP isCloneStep ≤ 3)
    ∧ (∀ e1 e2 e3, cloneErr 1 = some e1 → cloneErr 2 = some e2 → cloneErr 3 = some e3 →
        backupRepository name cloneErr zipOk =
          ({ name := name, success := false, error := e3 },
            [.cloneAttempt 1, .sleepSec 1, .cloneAttempt 2, .sleepSec 2, .cloneAttempt 3]))
    ∧ (∀ e1 e2, cloneErr 1 = some e1 → cloneErr 2 = some e2 → cloneErr 3 = none →
        (backupRepository name cloneErr zipOk).1
            = { name := name, success := true, error := [] }
          ∧ (backupRepository name cloneErr zipOk).2
            = [.cloneAttempt 1, .sleepSec 1, .cloneAttempt 2, .sleepSec 2, .cloneAttempt 3]
                ++ [.removeCreds, .sizeCalc, .compress]
                ++ (if zipOk then [.removeMirror] else [])) := by
  refine ⟨?_, ?_, ?_⟩
  · unfold backupRepository
    have hr := retryLoop_clone_count cloneErr maxRetries 1 none
    by_cases hs : (retryLoop cloneErr maxRetries 1 none).1
    · simp only [hs, if_pos]
      rw [List.countP_append, List.countP_append]
      have hpost : ([BStep.removeCreds, BStep.sizeCalc, BStep.compress].countP isCloneStep) = 0 := by
        decide
      have hzip : ((if zipOk then [BStep.removeMirror] else []).countP isCloneStep) = 0 := by
        cases zipOk <;> decide
      simp only [hpost, hzip, Nat.add_zero]
      exact hr
    · simp only [hs, Bool.false_eq_true, if_false]
      exact hr
  · intro e1 e2 e3 h1 h2 h3
    simp [backupRepository, retryLoop, maxRetries, h1, h2, h3]
  · intro e1 e2 h1 h2 h3
    simp [backupRepository, retryLoop, maxRetries, h1, h2, h3]

/-- Witness for claim C4 at a concrete clone oracle failing twice and
succeeding on the third attempt. -/
theorem backupRepository_retry_policy_witness :
    (backupRepository "repoA".toList
        (fun n => if n ≤ 2 then some "boom".toList else none) true).1
      = { name := "repoA".toList, success := true, error := [] } :=
  ((backupRepository_retry_policy "repoA".toList
      (fun n => if n ≤ 2 then some "boom".toList else none) true).2.2
    "boom".toList "boom".toList (by decide) (by decide) (by decide)).1

/-! The exit status of variant 2's `main`. -/

theorem loadConfig_ok_not_nil {content : Str} {repos : List Str}
    (h : loadConfig content = .ok repos) : repos ≠ [] := by
  simp only [loadConfig] at h
  split at h
  · cases h
  · next hne =>
    cases h
    simpa [List.isEmpty_iff] using hne

theorem runBackupV2_failed_eq (date : Str) (repos : List Str)
    (mkdirOk cloneOkOf zipOkOf : Str → Bool) :
    (runBackupV2 date repos mkdirOk cloneOkOf zipOkOf).failed
      = (runBackupV2 date repos mkdirOk cloneOkOf zipOkOf).results.countP
          (fun r => !r.success) := rfl

/-- Exit status of variant 2's `main` (the one that exits on
`summary.Failed > 0`): status 0 if and only if pre-flight validation and
configuration loading succeeded and every repository backup in the run
succeeded; status 1 when validation fails (missing token, missing
repository file, missing git), when the repository list is
missing/empty/entirely invalid, or when at least one repository's backup
failed. -/
theorem mainV2_exit_zero_iff (env : EnvV2) (content date : Str)
    (mkdirOk cloneOkOf zipOkOf : Str → Bool) :
    mainV2ExitCode env content date mkdirOk cloneOkOf zipOkOf = 0 ↔
      (validateEnvironment env = .ok () ∧
        ∃ repos, loadConfig content = .ok repos ∧
          ∀ r ∈ (runBackupV2 date repos mkdirOk cloneOkOf zipOkOf).results,
            r.success = true) := by
  constructor
  · intro h0
    unfold mainV2ExitCode at h0
    cases hv : validateEnvironment env with
    | error e => rw [hv] at h0; simp at h0
    | ok u =>
      rw [hv] at h0
      dsimp only at h0
      cases hl : loadConfig content with
      | error e => rw [hl] at h0; simp at h0
      | ok repos =>
        rw [hl] at h0
        dsimp only at h0
        refine ⟨rfl, repos, rfl, ?_⟩
        by_cases hlen : repos.length = 0
        · rw [if_pos hlen] at h0; simp at h0
        · rw [if_neg hlen] at h0
          by_cases hf : (runBackupV2 date repos mkdirOk cloneOkOf zipOkOf).failed > 0
          · rw [if_pos hf] at h0; simp at h0
          · intro r hr
            have hzero : (runBackupV2 date repos mkdirOk cloneOkOf zipOkOf).results.countP
                (fun r => !r.success) = 0 := by
              have := runBackupV2_failed_eq date repos mkdirOk cloneOkOf zipOkOf
              omega
            have := List.countP_eq_zero.mp hzero r hr
            simpa using this
  · rintro ⟨hv, repos, hl, hall⟩
    unfold mainV2ExitCode
    rw [hv, hl]
    dsimp only
    have hne := loadConfig_ok_not_nil hl
    have hlen : ¬repos.length = 0 := fun h => hne (List.eq_nil_of_length_eq_zero h)
    rw [if_neg hlen]
    have hzero : (runBackupV2 date repos mkdirOk cloneOkOf zipOkOf).failed = 0 := by
      rw [runBackupV2_failed_eq, List.countP_eq_zero]
      intro r hr
      simp [hall r hr]
    rw [hzero]
    simp

/-- Counterexample to claim C1 as stated: in variant 1 (the `BackupManager`
`main` and `RunBackup`, the first two code places the claim cites), a run
whose single repository fails still exits with status 0.  The summary
records one failure, yet `RunBackup` returns nil regardless of the failure
count and `main` therefore does not exit non-zero — contradicting the
claimed "non-zero when one or more repositories failed". -/
theorem mainV1_exit_zero_despite_failure :
    ((runBackupV1 "https://example.com/org/repoA.git".toList (fun _ => true)
          (fun r => { name := r.name, success := false, error := "clone failed".toList })).map
        BackupSummaryP.failureCount = some 1)
    ∧ mainV1ExitCode "tok".toList "https://example.com/org/repoA.git".toList (fun _ => true)
        (fun r => { name := r.name, success := false, error := "clone failed".toList }) = 0 :=
  ⟨rfl, rfl⟩

/-- Claim C1 (amended).  The exit status depends on the program variant.
In the free-function variant whose `main` ends with `os.Exit(1)` on
`summary.Failed > 0`, the process exits 0 if and only if pre-flight
validation and repository-list loading succeed and every repository backup
succeeded; it exits non-zero on a pre-flight/configuration failure or when
at least one repository failed.  In the `BackupManager` variant, the
process exits 0 if and only if pre-flight succeeds (non-empty token,
repository list loaded, backup directories created): per-repository
failures never reach the exit code. -/
theorem main_exit_status_by_variant :
    (∀ (env : EnvV2) (content date : Str) (mkdirOk cloneOkOf zipOkOf : Str → Bool),
        mainV2ExitCode env content date mkdirOk cloneOkOf zipOkOf = 0 ↔
          (validateEnvironment env = .ok () ∧
            ∃ repos, loadConfig content = .ok repos ∧
              ∀ r ∈ (runBackupV2 date repos mkdirOk cloneOkOf zipOkOf).results,
                r.success = true))
    ∧ (∀ (backupToken content : Str) (mkdirOk : RepositoryConfig → Bool)
          (backupOne : RepositoryConfig → BackupResultP),
        mainV1ExitCode backupToken content mkdirOk backupOne = 0 ↔
          (backupToken.isEmpty = false ∧
            ∃ s, runBackupV1 content mkdirOk backupOne = some s)) := by
  constructor
  · exact mainV2_exit_zero_iff
  · intro backupToken content mkdirOk backupOne
    unfold mainV1ExitCode
    by_cases ht : backupToken.isEmpty
    · rw [if_pos ht]
      simp [ht]
    · rw [if_neg ht]
      cases hr : runBackupV1 content mkdirOk backupOne with
      | none => simp [Bool.eq_false_iff.mpr ht]
      | some s => simp [Bool.eq_false_iff.mpr ht]

/-- Witness for claim C1's amended theorem: a concrete all-success run of
the variant-2 process exits 0, and a concrete variant-1 run whose only
repository fails still exits 0 because its pre-flight succeeded. -/
theorem main_exit_status_by_variant_witness :
    mainV2ExitCode ⟨"tok".toList, true, true⟩ "https://github.com/org/repo".toList
      "2024-01-01".toList (fun _ => true) (fun _ => true) (fun _ => true) = 0
    ∧ mainV1ExitCode "tok".toList "https://example.com/org/repoA.git".toList (fun _ => true)
        (fun r => { name := r.name, success := false, error := "clone failed".toList }) = 0 :=
  ⟨(main_exit_status_by_variant.1 ⟨"tok".toList, true, true⟩
      "https://github.com/org/repo".toList "2024-01-01".toList
      (fun _ => true) (fun _ => true) (fun _ => true)).mpr
    ⟨rfl, ["https://github.com/org/repo".toList], rfl, by decide⟩,
   (main_exit_status_by_variant.2 "tok".toList "https://example.com/org/repoA.git".toList
      (fun _ => true)
      (fun r => { name := r.name, success := false, error := "clone failed".toList })).mpr
    ⟨by decide, _, rfl⟩⟩

/-! The retention date filter. -/

/-- Claim C10.  The retention date filter `isDateDir` accepts a name exactly
when it has 10 characters with `-` at positions 4 and 7 and an ASCII digit
at every other position; it performs no calendar validation, so the
non-date string `"0000-99-99"` is accepted, and retention treats such a
directory as a dated backup eligible for deletion (here it is the oldest of
six dated directories and is the one deleted). -/
theorem isDateDir_position_spec :
    (∀ name : Str, isDateDir name = true ↔
        (name.length = 10 ∧ ∀ i, i < 10 →
          ∃ c, name.get? i = some c ∧
            (if i = 4 ∨ i = 7 then c = '-' else '0' ≤ c ∧ c ≤ '9')))
    ∧ isDateDir "0000-99-99".toList = true
    ∧ retentionToDelete
        [⟨"0000-99-99".toList, true⟩, ⟨"2024-01-01".toList, true⟩,
         ⟨"2024-01-02".toList, true⟩, ⟨"2024-01-03".toList, true⟩,
         ⟨"2024-01-04".toList, true⟩, ⟨"2024-01-05".toList, true⟩]
        = ["0000-99-99".toList] := by
  refine ⟨?_, by decide, by decide⟩
  intro name
  unfold isDateDir
  constructor
  · intro h
    split at h
    · cases h
    · next hlen =>
      have hlen10 : name.length = 10 := by omega
      refine ⟨hlen10, ?_⟩
      intro i hi
      have hget : name.get? i = some (name.get ⟨i, by omega⟩) := List.get?_eq_get (by omega)
      refine ⟨name.get ⟨i, by omega⟩, hget, ?_⟩
      have hmem : (i, name.get ⟨i, by omega⟩) ∈ name.enum := by
        rw [List.mk_mem_enum_iff_getElem?]
        simp [List.getElem?_eq_getElem (by omega : i < name.length)]
      have := List.all_eq_true.mp h _ hmem
      by_cases hc : i = 4 ∨ i = 7
      · simp only [hc, if_true] at this ⊢
        simpa using this
      · simp only [hc, if_false] at this ⊢
        simpa using this
  · rintro ⟨hlen, hpos⟩
    rw [if_neg (by omega)]
    rw [List.all_eq_true]
    rintro ⟨i, c⟩ hmem
    rw [List.mk_mem_enum_iff_getElem?] at hmem
    have hi : i < name.length := by
      by_contra hge
      rw [List.getElem?_eq_none (by omega)] at hmem
      cases hmem
    obtain ⟨c', hc', hspec⟩ := hpos i (by omega)
    have : c = c' := by
      rw [List.get?_eq_getElem?] at hc'
      rw [hmem] at hc'
      cases hc'
      rfl
    subst this
    by_cases hc : i = 4 ∨ i = 7
    · simp only [hc, if_true] at hspec ⊢
      simpa using hspec
    · simp only [hc, if_false] at hspec ⊢
      simpa using hspec

/-! Strictness and shape of the repository-list loader. -/

theorem processLines_all_skip :
    ∀ (lines : List Str) (i : Nat),
      (∀ l ∈ lines, skipLine (trimSpace l) = true) → processLines i lines = .ok [] := by
  intro lines
  induction lines with
  | nil => intro i _; rfl
  | cons l rest ih =>
    intro i h
    have hl := h l (by simp)
    have hrest : ∀ x ∈ rest, skipLine (trimSpace x) = true := fun x hx => h x (by simp [hx])
    simp only [processLines, hl, if_true]
    exact ih (i + 1) hrest

theorem processLines_malformed_line :
    ∀ (lines : List Str) (i : Nat),
      (∃ l ∈ lines, skipLine (trimSpace l) = false ∧ extractRepoNameFromURL (trimSpace l) = none) →
      ∃ e, processLines i lines = .error e := by
  intro lines
  induction lines with
  | nil => intro i h; simp at h
  | cons l rest ih =>
    intro i h
    rcases h with ⟨w, hw, hskip, hext⟩
    rcases List.mem_cons.mp hw with hhead | htail
    · subst hhead
      exact ⟨.invalidRepoURL (i + 1), by simp [processLines, hskip, hext]⟩
    · obtain ⟨e, he⟩ := ih (i + 1) ⟨w, htail, hskip, hext⟩
      by_cases hls : skipLine (trimSpace l)
      · exact ⟨e, by simp [processLines, hls, he]⟩
      · cases hle : extractRepoNameFromURL (trimSpace l) with
        | none => exact ⟨.invalidRepoURL (i + 1), by simp [processLines, hls, hle]⟩
        | some name => exact ⟨e, by simp [processLines, hls, hle, he]⟩

/-- Claim C5.  Repository-list loading is strict: whenever the input is
empty or consists only of comment/blank lines, or whenever some non-comment,
non-blank line's repository name cannot be extracted, the loader returns an
error — never a partial list.  (An entirely blank/comment input has no
non-skipped lines, so the first disjunct also covers the empty input, whose
single split line is blank.) -/
theorem loadRepositoriesFromFile_strict (content : Str)
    (h : (∀ l ∈ splitOnChar '\n' content, skipLine (trimSpace l) = true)
        ∨ (∃ l ∈ splitOnChar '\n' content,
            skipLine (trimSpace l) = false ∧ extractRepoNameFromURL (trimSpace l) = none)) :
    ∃ e, loadRepositoriesFromFile content = .error e := by
  rcases h with hall | hbad
  · refine ⟨.noValidRepos, ?_⟩
    have := processLines_all_skip (splitOnChar '\n' content) 0 hall
    simp [loadRepositoriesFromFile, this]
  · obtain ⟨e, he⟩ := processLines_malformed_line (splitOnChar '\n' content) 0 hbad
    exact ⟨e, by simp [loadRepositoriesFromFile, he]⟩

/-- Witness for claim C5: an input of comments and blanks only, and an input
with one malformed line, both load to an error. -/
theorem loadRepositoriesFromFile_strict_witness :
    (∃ e, loadRepositoriesFromFile "# comment\n\n".toList = .error e)
    ∧ ∃ e, loadRepositoriesFromFile "https://example.com/org/a.git\nbadline".toList = .error e :=
  ⟨loadRepositoriesFromFile_strict "# comment\n\n".toList (Or.inl (by decide)),
   loadRepositoriesFromFile_strict "https://example.com/org/a.git\nbadline".toList
    (Or.inr ⟨"badline".toList, by decide, by decide, by decide⟩)⟩

theorem processLines_ok_shape :
    ∀ (lines : List Str) (i : Nat) (repos : List RepositoryConfig),
      processLines i lines = .ok repos →
      repos.map RepositoryConfig.url = (lines.map trimSpace).filter (fun l => !skipLine l)
      ∧ ∀ r ∈ repos, extractRepoNameFromURL r.url = some r.name := by
  intro lines
  induction lines with
  | nil =>
    intro i repos h
    cases h
    simp
  | cons l rest ih =>
    intro i repos h
    by_cases hls : skipLine (trimSpace l)
    · simp only [processLines, hls, if_true] at h
      obtain ⟨hmap, hnames⟩ := ih (i + 1) repos h
      exact ⟨by simp [hmap, hls], hnames⟩
    · simp only [processLines, hls, if_false] at h
      cases hle : extractRepoNameFromURL (trimSpace l) with
      | none => rw [hle] at h; cases h
      | some name =>
        rw [hle] at h
        cases hrest : processLines (i + 1) rest with
        | error e => rw [hrest] at h; cases h
        | ok rs =>
          rw [hrest] at h
          cases h
          obtain ⟨hmap, hnames⟩ := ih (i + 1) rs hrest
          constructor
          · simp [hls, hmap]
          · intro r hr
            rcases List.mem_cons.mp hr with hhead | htail
            · subst hhead; exact hle
            · exact hnames r htail

/-- Claim C6.  For every input the loader accepts, it produces exactly one
descriptor per non-comment, non-blank trimmed line, in input order (so the
per-repository loop later produces exactly one outcome per such line), and
every descriptor's name is the one extracted from its URL; in particular the
list `["https://example.com/org/repoA.git", "# comment", "",
"https://example.com/org/repoB.git"]` yields exactly the two descriptors
named `repoA` and `repoB`. -/
theorem loader_one_descriptor_per_line :
    (∀ (content : Str) (repos : List RepositoryConfig),
        loadRepositoriesFromFile content = .ok repos →
          repos.length
              = (((splitOnChar '\n' content).map trimSpace).filter (fun l => !skipLine l)).length
            ∧ repos.map RepositoryConfig.url
              = ((splitOnChar '\n' content).map trimSpace).filter (fun l => !skipLine l)
            ∧ ∀ r ∈ repos, extractRepoNameFromURL r.url = some r.name)
    ∧ (∀ (backupOne : RepositoryConfig → BackupResultP) (repos : List RepositoryConfig),
        (performBackups backupOne repos).results.length = repos.length)
    ∧ loadRepositoriesFromFile
        "https://example.com/org/repoA.git\n# comment\n\nhttps://example.com/org/repoB.git".toList
      = .ok [{ name := "repoA".toList, url := "https://example.com/org/repoA.git".toList },
             { name := "repoB".toList, url := "https://example.com/org/repoB.git".toList }] := by
  refine ⟨?_, ?_, rfl⟩
  · intro content repos h
    simp only [loadRepositoriesFromFile] at h
    cases hp : processLines 0 (splitOnChar '\n' content) with
    | error e => rw [hp] at h; cases h
    | ok rs =>
      rw [hp] at h
      dsimp only at h
      by_cases hne : rs.isEmpty
      · rw [if_pos hne] at h; cases h
      · rw [if_neg hne] at h
        injection h with heq
        obtain ⟨hmap, hnames⟩ := processLines_ok_shape (splitOnChar '\n' content) 0 rs hp
        rw [← heq]
        refine ⟨?_, hmap, hnames⟩
        calc rs.length = (rs.map RepositoryConfig.url).length := by simp
        _ = _ := by rw [hmap]
  · intro backupOne repos
    suffices h : ∀ (l : List RepositoryConfig) (s : BackupSummaryP),
        ((l.foldl
            (fun s repo =>
              let result := backupOne repo
              { results := s.results ++ [result]
                successCount := s.successCount + (if result.success then 1 else 0)
                failureCount := s.failureCount + (if result.success then 0 else 1) })
            s).results.length) = s.results.length + l.length by
      simpa using h repos { results := [], successCount := 0, failureCount := 0 }
    intro l
    induction l with
    | nil => intro s; simp
    | cons repo rest ih =>
      intro s
      simp only [List.foldl_cons, List.length_cons]
      rw [ih]
      simp
      omega

/-- Witness for claim C6 at the scenario input of the claim. -/
theorem loader_one_descriptor_per_line_witness :
    ([{ name := "repoA".toList, url := "https://example.com/org/repoA.git".toList },
      { name := "repoB".toList, url := "https://example.com/org/repoB.git".toList }]
        : List RepositoryConfig).length
      = ((((splitOnChar '\n'
            "https://example.com/org/repoA.git\n# comment\n\nhttps://example.com/org/repoB.git".toList)).map
            trimSpace).filter (fun l => !skipLine l)).length :=
  (loader_one_descriptor_per_line.1
    "https://example.com/org/repoA.git\n# comment\n\nhttps://example.com/org/repoB.git".toList
    _ loader_one_descriptor_per_line.2.2).1

/-! Archival failure: the two pipelines disagree. -/

/-- Counterexample to claim C3 as stated: in variant 1's `backupRepository`
(the `BackupManager` pipeline, the first code place the claim cites), a
repository whose clone succeeds and whose compression fails is NOT marked
failed — the outcome keeps `Success = true` — and the uncompressed mirror is
NOT removed (no `removeMirror` step is performed; `os.RemoveAll` runs only
in the compression-success branch). -/
theorem backupRepository_zip_failure_contra :
    (backupRepository "repoA".toList (fun _ => none) false).1.success = true
    ∧ BStep.removeMirror ∉ (backupRepository "repoA".toList (fun _ => none) false).2 := by
  constructor
  · decide
  · decide

/-- Claim C3 (amended).  In variant 2's `backupRepo` (the second code place
the claim cites), a compression failure marks that repository's outcome
failed with the ZIP-creation error and removes the uncompressed mirror
directory from disk, and the run is not aborted: the per-repository loop
still yields one outcome per repository.  (In variant 1's
`backupRepository`, by contrast, a compression failure is only logged: the
outcome stays successful and the mirror is retained.) -/
theorem backupRepo_archive_failure :
    (∀ repoURL repoName backupDir : Str,
        repoURL.isEmpty = false → repoName.isEmpty = false → backupDir.isEmpty = false →
        (backupRepo repoURL repoName backupDir true false).1.success = false
        ∧ (backupRepo repoURL repoName backupDir true false).1.error = zipFailMsg
        ∧ (backupRepo repoURL repoName backupDir true false).2 = MirrorDisk.removed)
    ∧ (∀ (date : Str) (repos : List Str) (mkdirOk cloneOkOf zipOkOf : Str → Bool),
        (runBackupV2 date repos mkdirOk cloneOkOf zipOkOf).results.length = repos.length) := by
  constructor
  · intro repoURL repoName backupDir hu hn hd
    refine ⟨?_, ?_, ?_⟩ <;> simp [backupRepo, hu, hn, hd]
  · intro date repos mkdirOk cloneOkOf zipOkOf
    simp [runBackupV2]

/-- Witness for claim C3's amended theorem at concrete inputs. -/
theorem backupRepo_archive_failure_witness :
    (backupRepo "https://github.com/org/r".toList "org/r".toList "backups/org/r/d".toList
        true false).1.success = false
    ∧ (backupRepo "https://github.com/org/r".toList "org/r".toList "backups/org/r/d".toList
        true false).1.error = zipFailMsg
    ∧ (backupRepo "https://github.com/org/r".toList "org/r".toList "backups/org/r/d".toList
        true false).2 = MirrorDisk.removed :=
  backupRepo_archive_failure.1 "https://github.com/org/r".toList "org/r".toList
    "backups/org/r/d".toList (by decide) (by decide) (by decide)

/-! Lemmas about `goReplaceAll` and the credential scrub. -/

theorem prefixOf_iff {α : Type} [BEq α] [LawfulBEq α] {l₁ l₂ : List α} :
    l₁.isPrefixOf l₂ = true ↔ l₁ <+: l₂ :=
  List.isPrefixOf_iff_prefix

theorem goReplaceAll_no_occurrence (old new : Str) (hold : old ≠ []) :
    ∀ s : Str, ¬ old <:+: s → goReplaceAll s old new = s := by
  intro s
  induction s with
  | nil => intro _; rw [goReplaceAll, dif_neg hold]
  | cons c rest ih =>
    intro h
    rw [goReplaceAll, dif_neg hold]
    have hpre : old.isPrefixOf (c :: rest) = false := by
      rw [Bool.eq_false_iff]
      intro ht
      exact h (prefixOf_iff.mp ht).isInfix
    simp only [hpre, Bool.false_eq_true, if_false]
    rw [ih (fun hin => h (List.infix_cons hin))]

theorem goReplaceAll_head_match (old new b : Str) (hold : old ≠ []) :
    goReplaceAll (old ++ b) old new = new ++ goReplaceAll b old new := by
  cases hc : old with
  | nil => exact absurd hc hold
  | cons c old' =>
    subst hc
    rw [List.cons_append, goReplaceAll, dif_neg hold]
    have hpre : (c :: old').isPrefixOf (c :: (old' ++ b)) = true := by
      rw [prefixOf_iff, ← List.cons_append]
      exact List.prefix_append _ _
    simp only [hpre, if_true]
    rw [← List.cons_append, List.drop_left]

theorem goReplaceAll_skip_left (old new : Str) (hold : old ≠ []) :
    ∀ a s : Str, (∀ i, i < a.length → ¬ old <+: ((a ++ s).drop i)) →
      goReplaceAll (a ++ s) old new = a ++ goReplaceAll s old new := by
  intro a
  induction a with
  | nil => intro s _; simp
  | cons c a' ih =>
    intro s hno
    rw [List.cons_append, goReplaceAll, dif_neg hold]
    have h0 : ¬ old <+: (c :: (a' ++ s)) := by
      have := hno 0 (by simp)
      simpa using this
    have hpre : old.isPrefixOf (c :: (a' ++ s)) = false := by
      rw [Bool.eq_false_iff]
      intro ht
      exact h0 (prefixOf_iff.mp ht)
    simp only [hpre, Bool.false_eq_true, if_false]
    have ih' := ih s (fun i hi => by
      have := hno (i + 1) (by simp only [List.length_cons]; omega)
      simpa [List.drop_succ_cons] using this)
    rw [ih', List.cons_append]

theorem count_authHost_head (token : Str) (hTok : '@' ∉ token) :
    ((schemeHttps ++ token ++ ['@']).count '@') = 1 := by
  rw [List.count_append, List.count_append]
  have h1 : schemeHttps.count '@' = 0 := by decide
  have h2 : token.count '@' = 0 := List.count_eq_zero.mpr hTok
  simp [h1, h2]

theorem authHost_no_match_left (token a b : Str)
    (hTok : '@' ∉ token) (hA : '@' ∉ a) :
    ∀ i, i < a.length → ¬ authHost token <+: ((a ++ (authHost token ++ b)).drop i) := by
  intro i hi hmatch
  obtain ⟨t, ht⟩ := hmatch
  have hdrop : (a ++ (authHost token ++ b)).drop i = a.drop i ++ (authHost token ++ b) :=
    List.drop_append_of_le_length (le_of_lt hi)
  have hsplit : authHost token = (schemeHttps ++ token ++ ['@']) ++ "github.com".toList := by
    simp only [authHost, List.append_assoc]
    rfl
  have hlenpat : 8 + token.length + 1 ≤ (authHost token).length := by
    simp only [authHost, schemeHttps, List.length_append]
    have h8 : "https://".toList.length = 8 := by decide
    have h11 : "@github.com".toList.length = 11 := by decide
    omega
  have htake := congrArg (List.take (8 + token.length + 1)) ht
  have h1 : (authHost token ++ t).take (8 + token.length + 1)
      = (authHost token).take (8 + token.length + 1) :=
    List.take_append_of_le_length hlenpat
  have h2 : (authHost token).take (8 + token.length + 1) = schemeHttps ++ token ++ ['@'] := by
    rw [hsplit, List.take_left']
    simp only [List.length_append, List.length_cons, List.length_nil]
    have h8 : schemeHttps.length = 8 := by decide
    omega
  have hcount_left :
      (((a ++ (authHost token ++ b)).drop i).take (8 + token.length + 1)).count '@' = 1 := by
    rw [← htake, h1, h2]
    exact count_authHost_head token hTok
  have hcount_right :
      (((a ++ (authHost token ++ b)).drop i).take (8 + token.length + 1)).count '@' = 0 := by
    rw [hdrop, List.take_append_eq_append_take, List.count_append]
    have hc1 : (((a.drop i).take (8 + token.length + 1)).count '@') = 0 := by
      have hsub : List.Sublist ((a.drop i).take (8 + token.length + 1)) a :=
        List.Sublist.trans (List.take_sublist _ _) (List.drop_sublist _ _)
      have hle := hsub.count_le '@'
      have ha0 : a.count '@' = 0 := List.count_eq_zero.mpr hA
      omega
    have hdlen : 1 ≤ (a.drop i).length := by
      simp only [List.length_drop]
      omega
    have hc2 : (((authHost token ++ b).take
        (8 + token.length + 1 - (a.drop i).length)).count '@') = 0 := by
      have hpb : authHost token ++ b
          = (schemeHttps ++ token) ++ ('@' :: ("github.com".toList ++ b)) := by
        simp only [authHost, List.append_assoc]
        rfl
      rw [hpb, List.take_append_eq_append_take, List.count_append]
      have hm0 : 8 + token.length + 1 - (a.drop i).length - (schemeHttps ++ token).length = 0 := by
        simp only [List.length_append]
        have : schemeHttps.length = 8 := by decide
        omega
      rw [hm0]
      have hsub : List.Sublist ((schemeHttps ++ token).take
          (8 + token.length + 1 - (a.drop i).length)) (schemeHttps ++ token) :=
        List.take_sublist _ _
      have h0 : (schemeHttps ++ token).count '@' = 0 := by
        rw [List.count_append]
        have hs : schemeHttps.count '@' = 0 := by decide
        have ht0 : token.count '@' = 0 := List.count_eq_zero.mpr hTok
        omega
      have hle := hsub.count_le '@'
      simp only [List.take_zero, List.count_nil]
      omega
    omega
  omega

theorem removeCredentials_restores_plain (token a b : Str)
    (hTok : '@' ∉ token) (hA : '@' ∉ a)
    (hplain : ¬ token <:+: (a ++ plainHost ++ b)) :
    removeCredentialsFromConfig token (a ++ authHost token ++ b) = a ++ plainHost ++ b := by
  have hold : authHost token ≠ [] := by simp [authHost, schemeHttps]
  have hb : ¬ authHost token <:+: b := by
    intro hinf
    apply hplain
    have htok : token <:+: authHost token := ⟨schemeHttps, "@github.com".toList, rfl⟩
    exact ((htok.trans hinf).trans ((List.suffix_append (a ++ plainHost) b).isInfix))
  unfold removeCredentialsFromConfig
  rw [List.append_assoc]
  rw [goReplaceAll_skip_left _ _ hold a _ (authHost_no_match_left token a b hTok hA)]
  rw [goReplaceAll_head_match _ _ b hold]
  rw [goReplaceAll_no_occurrence _ _ hold b hb]
  rw [← List.append_assoc]

/-- Claim C2.  For every successfully cloned repository, the credential
scrub runs before the size probe and the compression step (in the emitted
step trace, `removeCreds` is preceded only by retry-loop steps and precedes
`sizeCalc` and `compress`); and scrubbing a configuration of the shape
`<pre> https://<token>@github.com<rest> <post>` — the on-disk client
configuration after cloning the authenticated URL — restores exactly the
plain configuration, so neither the configuration nor the archive built from
it afterwards contains the token substring.  Hypotheses: the token and the
text before the authenticated URL contain no `@` (GitHub tokens are
`@`-free, and the config template up to `url = ` is fixed text), and the
token does not occur in the plain configuration (it is a secret, unrelated
to the repository path). -/
theorem sanitize_before_archive_and_no_token :
    (∀ (name : Str) (cloneErr : Nat → Option Str) (zipOk : Bool),
        (backupRepository name cloneErr zipOk).1.success = true →
        ∃ pre post,
          (backupRepository name cloneErr zipOk).2 = pre ++ BStep.removeCreds :: post
          ∧ (∀ s ∈ pre, isRetryStep s = true)
          ∧ BStep.sizeCalc ∈ post ∧ BStep.compress ∈ post)
    ∧ (∀ token a b : Str, '@' ∉ token → '@' ∉ a → ¬ token <:+: (a ++ plainHost ++ b) →
        removeCredentialsFromConfig token (a ++ authHost token ++ b) = a ++ plainHost ++ b
        ∧ ¬ token <:+: removeCredentialsFromConfig token (a ++ authHost token ++ b)) := by
  constructor
  · intro name cloneErr zipOk hsucc
    simp only [backupRepository] at hsucc ⊢
    by_cases hr : (retryLoop cloneErr maxRetries 1 none).1
    · simp only [hr, if_true]
      refine ⟨(retryLoop cloneErr maxRetries 1 none).2.2,
        [BStep.sizeCalc, BStep.compress] ++ (if zipOk then [BStep.removeMirror] else []),
        by simp, ?_, by simp, by simp⟩
      exact fun s hs => retryLoop_steps cloneErr maxRetries 1 none s hs
    · simp only [hr, Bool.false_eq_true, if_false] at hsucc
  · intro token a b hTok hA hplain
    have hres := removeCredentials_restores_plain token a b hTok hA hplain
    exact ⟨hres, by rw [hres]; exact hplain⟩

/-- Witness for claim C2: a clone that succeeds immediately has the scrub
before size and compression in its trace, and scrubbing a concrete config
line with token `tok` restores the plain text, which does not contain
`tok`. -/
theorem sanitize_before_archive_and_no_token_witness :
    (∃ pre post,
        (backupRepository "repoA".toList (fun _ => none) true).2
          = pre ++ BStep.removeCreds :: post
        ∧ (∀ s ∈ pre, isRetryStep s = true)
        ∧ BStep.sizeCalc ∈ post ∧ BStep.compress ∈ post)
    ∧ (removeCredentialsFromConfig "tok".toList
          ("url = ".toList ++ authHost "tok".toList ++ "/org/repo\n".toList)
        = "url = ".toList ++ plainHost ++ "/org/repo\n".toList
      ∧ ¬ "tok".toList <:+:
          removeCredentialsFromConfig "tok".toList
            ("url = ".toList ++ authHost "tok".toList ++ "/org/repo\n".toList)) :=
  ⟨sanitize_before_archive_and_no_token.1 "repoA".toList (fun _ => none) true (by decide),
   sanitize_before_archive_and_no_token.2 "tok".toList "url = ".toList "/org/repo\n".toList
     (by decide) (by decide) (by decide)⟩

/-- Witness for claim C10: the accepted name `"2024-06-15"` has, by the
characterization, exactly 10 characters. -/
theorem isDateDir_position_spec_witness :
    ("2024-06-15".toList : Str).length = 10 :=
  ((isDateDir_position_spec.1 "2024-06-15".toList).mp (by decide)).1

/-! Lemmas about the lexicographic order and `sortStrings`. -/

theorem ltStr_asymm : ∀ s t : Str, ltStr s t = true → ltStr t s = false := by
  intro s
  induction s with
  | nil =>
    intro t h
    cases t with
    | nil => simp [ltStr] at h
    | cons b bs => simp [ltStr]
  | cons a as ih =>
    intro t h
    cases t with
    | nil => simp [ltStr] at h
    | cons b bs =>
      simp only [ltStr] at h ⊢
      by_cases hab : a = b
      · subst hab
        simp only [if_pos rfl] at h ⊢
        exact ih bs h
      · rw [if_neg hab] at h
        rw [if_neg (fun hba => hab hba.symm)]
        have hlt : a < b := of_decide_eq_true h
        simp only [decide_eq_false_iff_not]
        exact fun hba => absurd hlt (not_lt_of_gt hba)

theorem ltStr_trans : ∀ s t u : Str, ltStr s t = true → ltStr t u = true → ltStr s u = true := by
  intro s
  induction s with
  | nil =>
    intro t u hst htu
    cases t with
    | nil => simp [ltStr] at hst
    | cons b bs =>
      cases u with
      | nil => simp [ltStr] at htu
      | cons c cs => simp [ltStr]
  | cons a as ih =>
    intro t u hst htu
    cases t with
    | nil => simp [ltStr] at hst
    | cons b bs =>
      cases u with
      | nil => simp [ltStr] at htu
      | cons c cs =>
        simp only [ltStr] at hst htu ⊢
        by_cases hab : a = b
        · subst hab
          rw [if_pos rfl] at hst
          by_cases hbc : a = c
          · subst hbc
            rw [if_pos rfl] at htu ⊢
            exact ih bs cs hst htu
          · rw [if_neg hbc] at htu ⊢
            exact htu
        · rw [if_neg hab] at hst
          have hlt1 : a < b := of_decide_eq_true hst
          by_cases hbc : b = c
          · subst hbc
            rw [if_neg hab]
            exact decide_eq_true hlt1
          · rw [if_neg hbc] at htu
            have hlt2 : b < c := of_decide_eq_true htu
            have hac : a < c := lt_trans hlt1 hlt2
            rw [if_neg (ne_of_lt hac)]
            exact decide_eq_true hac

theorem ltStr_connex : ∀ s t : Str, ltStr s t = false → ltStr t s = false → s = t := by
  intro s
  induction s with
  | nil =>
    intro t hst _
    cases t with
    | nil => rfl
    | cons b bs => simp [ltStr] at hst
  | cons a as ih =>
    intro t hst hts
    cases t with
    | nil => simp [ltStr] at hts
    | cons b bs =>
      simp only [ltStr] at hst hts
      by_cases hab : a = b
      · subst hab
        rw [if_pos rfl] at hst hts
        rw [ih bs hst hts]
      · rw [if_neg hab] at hst
        rw [if_neg (fun h => hab h.symm)] at hts
        have h1 : ¬a < b := of_decide_eq_false hst
        have h2 : ¬b < a := of_decide_eq_false hts
        rcases lt_or_gt_of_ne hab with hlt | hgt
        · exact absurd hlt h1
        · exact absurd hgt h2

theorem insertStr_perm : ∀ (x : Str) (l : List Str), List.Perm (insertStr x l) (x :: l) := by
  intro x l
  induction l with
  | nil => simp [insertStr]
  | cons y ys ih =>
    simp only [insertStr]
    by_cases h : ltStr x y
    · rw [if_pos h]
    · rw [if_neg h]
      exact (ih.cons y).trans (List.Perm.swap x y ys)

theorem sortStrings_perm : ∀ l : List Str, List.Perm (sortStrings l) l := by
  intro l
  induction l with
  | nil => simp [sortStrings]
  | cons x xs ih =>
    simp only [sortStrings, List.foldr_cons]
    exact (insertStr_perm x _).trans (ih.cons x)

theorem insertStr_pairwise (x : Str) :
    ∀ l : List Str, List.Pairwise (fun p q => ltStr q p = false) l →
      List.Pairwise (fun p q => ltStr q p = false) (insertStr x l) := by
  intro l
  induction l with
  | nil => intro _; simp [insertStr]
  | cons y ys ih =>
    intro hp
    rw [List.pairwise_cons] at hp
    obtain ⟨hy, hys⟩ := hp
    simp only [insertStr]
    by_cases h : ltStr x y
    · rw [if_pos h]
      rw [List.pairwise_cons]
      refine ⟨?_, List.pairwise_cons.mpr ⟨hy, hys⟩⟩
      intro z hz
      rcases List.mem_cons.mp hz with hzy | hzys
      · rw [hzy]
        exact ltStr_asymm x y h
      · have hyz : ltStr z y = false := hy z hzys
        rw [Bool.eq_false_iff]
        intro hzx
        have := ltStr_trans z x y hzx h
        rw [hyz] at this
        cases this
    · rw [if_neg h]
      rw [List.pairwise_cons]
      constructor
      · intro z hz
        have hz' := (insertStr_perm x ys).mem_iff.mp hz
        rcases List.mem_cons.mp hz' with hzx | hzys
        · subst hzx
          exact Bool.eq_false_iff.mpr h
        · exact hy z hzys
      · exact ih hys

theorem sortStrings_pairwise :
    ∀ l : List Str, List.Pairwise (fun p q => ltStr q p = false) (sortStrings l) := by
  intro l
  induction l with
  | nil => simp [sortStrings]
  | cons x xs ih =>
    simp only [sortStrings, List.foldr_cons]
    exact insertStr_pairwise x _ ih

theorem retentionCandidates_dated (entries : List DirEntry) :
    ∀ x ∈ retentionCandidates entries, isDateDir x = true := by
  intro x hx
  simp only [retentionCandidates, List.mem_map, List.mem_filter] at hx
  obtain ⟨e, ⟨_, hpe⟩, hname⟩ := hx
  rw [Bool.and_eq_true] at hpe
  rw [← hname]
  exact hpe.2

/-- Claim C8.  Retention for one repository considers only the
directory-listing entries that are directories with an exact `YYYY-MM-DD`
positional name (everything else is never deleted: every deleted name is one
of the dated candidates); when more than the maximum of 5 dated directories
exist, it deletes exactly `count - 5` of them, and the deleted ones are the
lexicographically smallest: no kept dated directory is smaller than a
deleted one, and exactly 5 (the newest) remain. -/
theorem enforceRetention_deletes_oldest (entries : List DirEntry)
    (hgt : maxBackups < (retentionCandidates entries).length)
    (hnd : (retentionCandidates entries).Nodup) :
    (retentionToDelete entries).length = (retentionCandidates entries).length - maxBackups
    ∧ (∀ d ∈ retentionToDelete entries,
        d ∈ retentionCandidates entries ∧ isDateDir d = true)
    ∧ (∀ d ∈ retentionToDelete entries, ∀ k ∈ retentionCandidates entries,
        k ∉ retentionToDelete entries → ltStr k d = false)
    ∧ ((retentionCandidates entries).filter
        (fun k => decide (k ∉ retentionToDelete entries))).length = maxBackups := by
  have hdel : retentionToDelete entries
      = (sortStrings (retentionCandidates entries)).take
          ((retentionCandidates entries).length - maxBackups) := by
    simp only [retentionToDelete]
    rw [if_neg (not_le.mpr hgt)]
  have hperm := sortStrings_perm (retentionCandidates entries)
  have hlen : (sortStrings (retentionCandidates entries)).length
      = (retentionCandidates entries).length := hperm.length_eq
  have hpair := sortStrings_pairwise (retentionCandidates entries)
  have hmem_del : ∀ d ∈ retentionToDelete entries, d ∈ retentionCandidates entries := by
    intro d hd
    rw [hdel] at hd
    exact hperm.mem_iff.mp (List.mem_of_mem_take hd)
  refine ⟨?_, ?_, ?_, ?_⟩
  · rw [hdel, List.length_take, hlen]
    omega
  · exact fun d hd => ⟨hmem_del d hd, retentionCandidates_dated entries d (hmem_del d hd)⟩
  · intro d hd k hk hknot
    have hksorted : k ∈ sortStrings (retentionCandidates entries) := hperm.mem_iff.mpr hk
    have hsplit := List.take_append_drop
      ((retentionCandidates entries).length - maxBackups)
      (sortStrings (retentionCandidates entries))
    have hkdrop : k ∈ (sortStrings (retentionCandidates entries)).drop
        ((retentionCandidates entries).length - maxBackups) := by
      rw [← hsplit] at hksorted
      rcases List.mem_append.mp hksorted with hkt | hkd
      · exact absurd (hdel ▸ hkt) hknot
      · exact hkd
    have hpair' : List.Pairwise (fun p q => ltStr q p = false)
        ((sortStrings (retentionCandidates entries)).take
            ((retentionCandidates entries).length - maxBackups)
          ++ (sortStrings (retentionCandidates entries)).drop
            ((retentionCandidates entries).length - maxBackups)) := by
      rw [hsplit]
      exact hpair
    rw [hdel] at hd
    exact (List.pairwise_append.mp hpair').2.2 d hd k hkdrop
  · have hndsorted : (sortStrings (retentionCandidates entries)).Nodup :=
      hperm.nodup_iff.mpr hnd
    have hfilperm : List.Perm
        ((retentionCandidates entries).filter (fun k => decide (k ∉ retentionToDelete entries)))
        ((sortStrings (retentionCandidates entries)).filter
          (fun k => decide (k ∉ retentionToDelete entries))) :=
      (hperm.filter _).symm
    rw [hfilperm.length_eq]
    have hsplit := List.take_append_drop
      ((retentionCandidates entries).length - maxBackups)
      (sortStrings (retentionCandidates entries))
    rw [← hsplit, List.filter_append]
    have hdisj := (List.nodup_append.mp (hsplit ▸ hndsorted)).2.2
    have h1 : ((sortStrings (retentionCandidates entries)).take
        ((retentionCandidates entries).length - maxBackups)).filter
          (fun k => decide (k ∉ retentionToDelete entries)) = [] := by
      rw [List.filter_eq_nil_iff]
      intro x hx
      simp only [decide_eq_true_eq, not_not]
      rw [hdel]
      exact hx
    have h2 : ((sortStrings (retentionCandidates entries)).drop
        ((retentionCandidates entries).length - maxBackups)).filter
          (fun k => decide (k ∉ retentionToDelete entries))
        = (sortStrings (retentionCandidates entries)).drop
            ((retentionCandidates entries).length - maxBackups) := by
      rw [List.filter_eq_self]
      intro x hx
      simp only [decide_eq_true_eq]
      rw [hdel]
      intro hxtake
      exact hdisj hxtake hx
    rw [h1, h2, List.nil_append, List.length_drop, hlen]
    omega

/-- Witness for claim C8 at a concrete listing of six dated directories, one
non-dated directory and one non-directory entry. -/
theorem enforceRetention_deletes_oldest_witness :
    (retentionToDelete
        [⟨"2024-02-01".toList, true⟩, ⟨"2024-01-01".toList, true⟩,
         ⟨"2024-01-02".toList, true⟩, ⟨"2024-01-03".toList, true⟩,
         ⟨"2024-01-04".toList, true⟩, ⟨"2024-01-05".toList, true⟩,
         ⟨"notes".toList, true⟩, ⟨"2024-03-01".toList, false⟩]).length
      = (retentionCandidates
          [⟨"2024-02-01".toList, true⟩, ⟨"2024-01-01".toList, true⟩,
           ⟨"2024-01-02".toList, true⟩, ⟨"2024-01-03".toList, true⟩,
           ⟨"2024-01-04".toList, true⟩, ⟨"2024-01-05".toList, true⟩,
           ⟨"notes".toList, true⟩, ⟨"2024-03-01".toList, false⟩]).length - maxBackups :=
  (enforceRetention_deletes_oldest
    [⟨"2024-02-01".toList, true⟩, ⟨"2024-01-01".toList, true⟩,
     ⟨"2024-01-02".toList, true⟩, ⟨"2024-01-03".toList, true⟩,
     ⟨"2024-01-04".toList, true⟩, ⟨"2024-01-05".toList, true⟩,
     ⟨"notes".toList, true⟩, ⟨"2024-03-01".toList, false⟩]
    (by decide) (by decide)).1

/-! Lemmas about the dated-directory filesystem model. -/

theorem stepFS_fresh (t : FPath) (fs : FS) (p : FPath) (hp : t <+: p) :
    mkdirAllFS t (removeAllFS t fs) p = decide (p = t) := by
  unfold mkdirAllFS removeAllFS
  by_cases hpt : p = t
  · subst hpt
    rw [if_pos (prefixOf_iff.mpr (List.prefix_refl p))]
    simp
  · have h1 : p.isPrefixOf t = false := by
      rw [Bool.eq_false_iff]
      intro h
      exact hpt ((prefixOf_iff.mp h).eq_of_length
        (le_antisymm (prefixOf_iff.mp h).length_le hp.length_le))
    have h2 : t.isPrefixOf p = true := prefixOf_iff.mpr hp
    rw [h1, h2]
    simp [hpt]

theorem stepFS_other (n n' d : Str) (fs : FS) (p : FPath)
    (hp : backupPathOf n d <+: p) (hne : n' ≠ n) :
    mkdirAllFS (backupPathOf n' d) (removeAllFS (backupPathOf n' d) fs) p = fs p := by
  unfold mkdirAllFS removeAllFS
  have hteq : ∀ m : Str, (backupPathOf m d).length = 3 := fun m => rfl
  have h1 : p.isPrefixOf (backupPathOf n' d) = false := by
    rw [Bool.eq_false_iff]
    intro h
    have hpt' : p <+: backupPathOf n' d := prefixOf_iff.mp h
    have htt' : backupPathOf n d <+: backupPathOf n' d := hp.trans hpt'
    have := htt'.eq_of_length (by rw [hteq, hteq])
    simp only [backupPathOf, List.cons.injEq, and_true, true_and] at this
    exact hne this.symm
  have h2 : (backupPathOf n' d).isPrefixOf p = false := by
    rw [Bool.eq_false_iff]
    intro h
    have hpt' : backupPathOf n' d <+: p := prefixOf_iff.mp h
    have e1 := List.prefix_iff_eq_take.mp hp
    have e2 := List.prefix_iff_eq_take.mp hpt'
    rw [hteq] at e1
    rw [hteq] at e2
    have : backupPathOf n d = backupPathOf n' d := by rw [e1, e2]
    simp only [backupPathOf, List.cons.injEq, and_true, true_and] at this
    exact hne this.symm
  rw [h1, h2]
  simp

theorem createDirsFS_preserves_fresh (d : Str) :
    ∀ (repos : List RepositoryConfig) (fs : FS) (name : Str),
      (∀ q, backupPathOf name d <+: q → fs q = decide (q = backupPathOf name d)) →
      ∀ p, backupPathOf name d <+: p →
        createBackupDirectoriesFS repos d fs p = decide (p = backupPathOf name d) := by
  intro repos
  induction repos with
  | nil => intro fs name hfresh p hp; exact hfresh p hp
  | cons r rest ih =>
    intro fs name hfresh p hp
    simp only [createBackupDirectoriesFS, List.foldl_cons] at *
    apply ih _ name _ p hp
    intro q hq
    by_cases hrn : r.name = name
    · rw [hrn]
      exact stepFS_fresh (backupPathOf name d) fs q hq
    · rw [stepFS_other name r.name d fs q hq hrn]
      exact hfresh q hq

/-- Claim C9.  Variant 1's `createBackupDirectories` deletes any
pre-existing same-date backup directory of a repository before recreating
it: after the call, the repository's dated directory path exists, nothing
exists below it, and the state of the dated directory's subtree is the same
whatever was on disk before — in particular, running the pipeline a second
time on the same calendar date (whatever the first run and its backups left
under the dated path) reproduces exactly the same single fresh dated
directory, not a second one. -/
theorem createBackupDirectories_idempotent
    (repos : List RepositoryConfig) (date : Str) (repo : RepositoryConfig)
    (hmem : repo ∈ repos) :
    (∀ fs : FS, createBackupDirectoriesFS repos date fs (backupPathOf repo.name date) = true)
    ∧ (∀ (fs : FS) (p : FPath), backupPathOf repo.name date <+: p →
        p ≠ backupPathOf repo.name date →
        createBackupDirectoriesFS repos date fs p = false)
    ∧ (∀ (fs fs' : FS) (p : FPath), backupPathOf repo.name date <+: p →
        createBackupDirectoriesFS repos date fs p
          = createBackupDirectoriesFS repos date fs' p) := by
  have master : ∀ (fs : FS) (p : FPath), backupPathOf repo.name date <+: p →
      createBackupDirectoriesFS repos date fs p = decide (p = backupPathOf repo.name date) := by
    intro fs p hp
    obtain ⟨l1, l2, hsplit⟩ := List.append_of_mem hmem
    subst hsplit
    simp only [createBackupDirectoriesFS, List.foldl_append, List.foldl_cons]
    have hfresh : ∀ q, backupPathOf repo.name date <+: q →
        (mkdirAllFS (backupPathOf repo.name date)
          (removeAllFS (backupPathOf repo.name date)
            (List.foldl
              (fun acc r =>
                mkdirAllFS (backupPathOf r.name date) (removeAllFS (backupPathOf r.name date) acc))
              fs l1))) q
          = decide (q = backupPathOf repo.name date) :=
      fun q hq => stepFS_fresh (backupPathOf repo.name date) _ q hq
    have := createDirsFS_preserves_fresh date l2 _ repo.name hfresh p hp
    simpa [createBackupDirectoriesFS] using this
  refine ⟨?_, ?_, ?_⟩
  · intro fs
    rw [master fs _ (List.prefix_refl _)]
    simp
  · intro fs p hp hne
    rw [master fs p hp]
    simp [hne]
  · intro fs fs' p hp
    rw [master fs p hp, master fs' p hp]

/-- Witness for claim C9 at a concrete repository list and two different
initial filesystem states (an empty disk, and a disk still holding a stale
file inside the same-date directory): the dated directory exists afterwards
in both, and the stale file is gone. -/
theorem createBackupDirectories_idempotent_witness :
    createBackupDirectoriesFS [⟨"repoA".toList, "u".toList⟩] "2024-01-01".toList
        (fun _ => false) (backupPathOf "repoA".toList "2024-01-01".toList) = true
    ∧ createBackupDirectoriesFS [⟨"repoA".toList, "u".toList⟩] "2024-01-01".toList
        (fun p => decide (p = backupPathOf "repoA".toList "2024-01-01".toList ++ ["stale".toList]))
        (backupPathOf "repoA".toList "2024-01-01".toList ++ ["stale".toList]) = false :=
  ⟨(createBackupDirectories_idempotent [⟨"repoA".toList, "u".toList⟩] "2024-01-01".toList
      ⟨"repoA".toList, "u".toList⟩ (by simp)).1 (fun _ => false),
   (createBackupDirectories_idempotent [⟨"repoA".toList, "u".toList⟩] "2024-01-01".toList
      ⟨"repoA".toList, "u".toList⟩ (by simp)).2.1 _ _ (List.prefix_append _ _) (by decide)⟩

end Backup



